import Mathlib

/-!
Verification development for the omni-chat meta-discussion core
(`src/meta-discussion.ts`, `src/user.ts`).

Conventions of the embedding:
* Timestamps (`Date` objects in the source) are `Int` milliseconds since the epoch.
* Promise-returning methods become pure functions; a rejected promise becomes
  `Except.error` carrying the `Incident` name of the rejection.
* The `MetaDiscussion.subDiscussions` registry is a `List Subdiscussion`,
  in insertion order, exactly as in the source.
* `SimpleDiscussion`, `SimpleMessage` and `MetaMessage` are not part of the
  sources at hand; the fields and operations used by `meta-discussion.ts` and
  `user.ts` are modelled from the spec (see the individual doc comments).
-/

namespace OmniChat

/-- Modelled from the spec: a Simple Message "exposes body, author, creation
time, and a body-equality check against another message" (§2); its class is not
under `src/`. Only the body and the creation time are consulted by the code
under verification, so the model carries those two fields. -/
structure SimpleMessage where
  body : String
  created : Int
deriving DecidableEq, Repr, Inhabited

/-- Modelled from the spec: `hasTheSameBodyAs` is the "body-equality check
against another message" (§2). -/
def SimpleMessage.hasTheSameBodyAs (a b : SimpleMessage) : Bool :=
  a.body == b.body

/-- Modelled from the spec: a Simple Discussion "wraps exactly one driver-level
discussion" and must expose `getMessages`, `getParticipants`, `sendMessage`,
`merge`, `isTheSameAs`, `getDriverName`, `getLocalUserAccount` and a global id
(§6); its class is not under `src/`. `driverName` is the value of
`getDriverName()`, `localAccountId` the global id of `getLocalUserAccount()`,
`globalId` the value of `getGlobalId()`, `messages` the underlying driver
message store consulted by `getMessages`, `participants` the value returned by
`getParticipants`, and `sendFails` models whether the backend rejects sends on
this discussion. -/
structure SimpleDiscussion where
  driverName : String
  localAccountId : String
  globalId : String
  messages : List SimpleMessage
  participants : List String
  sendFails : Bool
deriving DecidableEq, Repr, Inhabited

/-- Modelled from the spec: driver-level "message retrieval with options
`{ maxMessages, afterDate, filter }`" (§6), where the retrieval window is
"bounded below by that entry's `addedAt` (messages sent before the account
joined this meta-discussion are excluded)" (§4.2 step 1). The `maxMessages` and
`filter` options are the caller's and are left out: the claims quantify over
whatever message pool the fetch returns, so `messages` stands for the
post-filter store. -/
def SimpleDiscussion.getMessages (d : SimpleDiscussion) (afterDate : Option Int) :
    List SimpleMessage :=
  d.messages.filter fun m =>
    match afterDate with
    | some t => t ≤ m.created
    | none => true

/-- Modelled from the spec: `isTheSameAs` is the "identity/equality check
against another simple discussion" (§2); global ids are "durable" identities
(§6), so identity comparison compares global ids. -/
def SimpleDiscussion.isTheSameAs (a b : SimpleDiscussion) : Bool :=
  a.globalId == b.globalId

/-- Modelled from the spec: `merge(other)` is the "protocol-specific merge" of
another discussion into this one (§4.1); it absorbs the other discussion's
content while keeping this discussion's identity (driver, local account,
global id). -/
def SimpleDiscussion.merge (a b : SimpleDiscussion) : SimpleDiscussion :=
  { a with
    messages := a.messages ++ b.messages
    participants := a.participants ++ b.participants }

/-- Modelled from the spec: `sendMessage(newMessage)` resolves with the sent
message or rejects when the backend fails (§6, §4.3); the failure mode is the
`sendFails` flag, and the sent message's creation time is assigned by the
backend (taken as 0, it is never consulted by the code under verification). -/
def SimpleDiscussion.sendMessage (d : SimpleDiscussion) (body : String) :
    Except String SimpleMessage :=
  if d.sendFails then .error "send failed" else .ok ⟨body, 0⟩

/-- Modelled from the spec: `SimpleDiscussion.getParticipants` returns the
participant list of the wrapped driver discussion (§6). The options argument is
passed through by the meta-level code but its effect on a single driver fetch
is irrelevant to the claims, which hold for every returned list. -/
def SimpleDiscussion.getParticipants (d : SimpleDiscussion) : List String :=
  d.participants

/-- The registry entry interface `Subdiscussion` of `meta-discussion.ts`
(lines 565-569): `{subdiscussion, added, removed}`, with `removed : Date`
nullable, hence `Option Int`. -/
structure Subdiscussion where
  subdiscussion : SimpleDiscussion
  added : Int
  removed : Option Int
deriving DecidableEq, Repr, Inhabited

/-- Modelled from the spec: a Meta-Message is "an ordered, non-empty collection
of Simple Messages" whose constructor takes the initial constituents and whose
`merge` appends another Meta-Message's constituents (§3); its class is not
under `src/`. It is represented by its constituent list. -/
abbrev MetaMessage := List SimpleMessage

/-- The `{msg, date}` pairs built in `getMessages` (`meta-discussion.ts`
lines 145-161), where `date` is `msg.getCreationDate()`. -/
structure DatedMsg where
  msg : SimpleMessage
  date : Int
deriving DecidableEq, Repr, Inhabited

/-- One sub-discussion's contribution to the pool of `getMessages`
(`meta-discussion.ts` lines 141-166): fetch with `opts.afterDate =
discuss.added`, pair each message with its creation date, and keep a message of
a removed entry only when `date < removed` (line 154). -/
def fetchFrom (e : Subdiscussion) : List DatedMsg :=
  ((e.subdiscussion.getMessages (some e.added)).map fun m => ⟨m, m.created⟩).filter
    fun dm =>
      match e.removed with
      | some r => dm.date < r
      | none => true

/-- The pooled `messages` array of `getMessages` (`meta-discussion.ts`
lines 162-166): every entry's fetched-and-filtered messages, entries in
registry order. -/
def pooledMessages (registry : List Subdiscussion) : List DatedMsg :=
  (registry.map fetchFrom).flatten

/-- The sort key used by `_.sortBy(messages, ["date"])` (`meta-discussion.ts`
line 169). -/
def dateLe (a b : DatedMsg) : Prop :=
  a.date ≤ b.date

instance : DecidableRel dateLe := fun a b =>
  show Decidable (a.date ≤ b.date) from inferInstance

instance : IsTotal DatedMsg dateLe :=
  ⟨fun a b => Int.le_total a.date b.date⟩

instance : IsTrans DatedMsg dateLe :=
  ⟨fun _ _ _ h1 h2 => le_trans h1 h2⟩

/-- The sorted pool of `getMessages` (`meta-discussion.ts` line 169).
`_.sortBy` is a stable ascending sort by the key, which on lists coincides with
insertion sort by `dateLe`. -/
def sortedPool (registry : List Subdiscussion) : List DatedMsg :=
  List.insertionSort dateLe (pooledMessages registry)

/-- The inner deduplication scan of `getMessages` (`meta-discussion.ts`
lines 178-188) for the opener `m`: walk the remaining array left to right;
`break` when `m.date > candidate.date + 5*1000*60` (line 179, the source's own
window test, comparison direction included); when the candidate has the same
body as `m`, splice it out of the array and record it as a constituent
(lines 182-187, where `meta.merge(tempMeta)` appends `candidate.msg`).
Returns (constituents folded into `m`'s Meta-Message, surviving array). -/
def collectDup (m : DatedMsg) : List DatedMsg → List SimpleMessage × List DatedMsg
  | [] => ([], [])
  | x :: xs =>
    if m.date > x.date + 5 * 1000 * 60 then
      ([], x :: xs)
    else if m.msg.hasTheSameBodyAs x.msg then
      let p := collectDup m xs
      (x.msg :: p.1, p.2)
    else
      let p := collectDup m xs
      (p.1, x :: p.2)

theorem collectDup_sublist (m : DatedMsg) (l : List DatedMsg) :
    List.Sublist (collectDup m l).2 l := by
  induction l with
  | nil => simp [collectDup]
  | cons x xs ih =>
    simp only [collectDup]
    split
    · simp
    · split
      · simpa using ih.cons x
      · simpa using ih.cons₂ x

theorem collectDup_snd_length (m : DatedMsg) (l : List DatedMsg) :
    (collectDup m l).2.length ≤ l.length :=
  (collectDup_sublist m l).length_le

/-- The outer sweep of `getMessages` (`meta-discussion.ts` lines 175-190): take
the next unconsumed message as the opener of a new Meta-Message (line 177,
`new MetaMessage([message.msg])`), fold the duplicates collected by the inner
scan into it, and continue on the surviving array. The recursion consumes at
least one pool element per step, so a fuel of the pool's length suffices; the
fuel only makes the recursion structural. -/
def sweepAux : Nat → List DatedMsg → List MetaMessage
  | _, [] => []
  | 0, _ :: _ => []
  | n + 1, m :: rest =>
    let p := collectDup m rest
    (m.msg :: p.1) :: sweepAux n p.2

def sweepGroups (l : List DatedMsg) : List MetaMessage :=
  sweepAux l.length l

/-- `MetaDiscussion.getMessages` (`meta-discussion.ts` lines 126-194): pool the
per-entry fetches, sort by creation date, then sweep for duplicates. The
resulting Meta-Messages are represented by their constituent lists. -/
def getMessages (registry : List Subdiscussion) : List MetaMessage :=
  sweepGroups (sortedPool registry)

/-- The concrete registry refuting the 5-minute window: one sub-discussion,
added at time 0 and never removed, holding two messages with the same body
10 minutes apart. -/
def windowEntry : Subdiscussion :=
  ⟨⟨"driverA", "accountA", "discA", [⟨"dup", 0⟩, ⟨"dup", 600000⟩], [], false⟩, 0, none⟩

/-- C1: the claim states that two equal-body messages more than 5 minutes apart
end in two separate Meta-Messages, the forward scan stopping once the 5-minute
window from the opener is exceeded. The code disagrees: the window test at
`meta-discussion.ts` line 179 is `message.date > candidate.date + 5*60*1000`,
which on the ascending-sorted pool (opener's date ≤ candidate's date) is never
true, so the scan never stops and equal bodies are merged at any distance —
contradicting the line's own `// more than 5 minutes` comment. At the concrete
input, two "dup" messages 10 minutes apart come back as ONE Meta-Message
containing both. -/
theorem getMessages_merges_beyond_window :
    getMessages [windowEntry] = [[⟨"dup", 0⟩, ⟨"dup", 600000⟩]] := by
  decide

theorem collectDup_perm (m : DatedMsg) (l : List DatedMsg) :
    (l.map (·.msg)).Perm ((collectDup m l).1 ++ (collectDup m l).2.map (·.msg)) := by
  induction l with
  | nil => simp [collectDup]
  | cons x xs ih =>
    simp only [collectDup]
    split
    · simp
    · split
      · simpa using List.Perm.cons x.msg ih
      · simp only [List.map_cons]
        exact (List.Perm.cons x.msg ih).trans List.perm_middle.symm

theorem collectDup_fst_mem (m : DatedMsg) (l : List DatedMsg) :
    ∀ y ∈ (collectDup m l).1, ∃ x ∈ l, x.msg = y := by
  induction l with
  | nil => simp [collectDup]
  | cons x xs ih =>
    simp only [collectDup]
    split
    · simp
    · split
      · intro y hy
        rcases List.mem_cons.mp hy with h | h
        · exact ⟨x, List.mem_cons_self x xs, h.symm⟩
        · obtain ⟨x', hx', hx'e⟩ := ih y h
          exact ⟨x', List.mem_cons_of_mem x hx', hx'e⟩
      · intro y hy
        obtain ⟨x', hx', hx'e⟩ := ih y hy
        exact ⟨x', List.mem_cons_of_mem x hx', hx'e⟩

theorem sweepAux_flatten_perm (n : Nat) :
    ∀ l : List DatedMsg, l.length ≤ n →
      ((sweepAux n l).flatten).Perm (l.map (·.msg)) := by
  induction n with
  | zero =>
    intro l h
    have : l = [] := List.length_eq_zero.mp (Nat.le_zero.mp h)
    subst this
    simp [sweepAux]
  | succ n ih =>
    intro l h
    cases l with
    | nil => simp [sweepAux]
    | cons m rest =>
      have hlen : (collectDup m rest).2.length ≤ n := by
        have := collectDup_snd_length m rest
        simp only [List.length_cons] at h
        omega
      have ihp := ih (collectDup m rest).2 hlen
      have hflat : (sweepAux (n + 1) (m :: rest)).flatten
          = m.msg :: ((collectDup m rest).1
            ++ (sweepAux n (collectDup m rest).2).flatten) := by
        simp [sweepAux]
      rw [hflat, List.map_cons]
      exact ((List.Perm.append_left _ ihp).trans (collectDup_perm m rest).symm).cons m.msg

theorem sweepAux_mem (n : Nat) :
    ∀ l : List DatedMsg, l.length ≤ n →
      ∀ g ∈ sweepAux n l, ∀ y ∈ g, ∃ x ∈ l, x.msg = y := by
  induction n with
  | zero =>
    intro l h
    have : l = [] := List.length_eq_zero.mp (Nat.le_zero.mp h)
    subst this
    simp [sweepAux]
  | succ n ih =>
    intro l h
    cases l with
    | nil => simp [sweepAux]
    | cons m rest =>
      have hlen : (collectDup m rest).2.length ≤ n := by
        have := collectDup_snd_length m rest
        simp only [List.length_cons] at h
        omega
      intro g hg y hy
      rcases List.mem_cons.mp hg with hfst | htail
      · subst hfst
        rcases List.mem_cons.mp hy with h1 | h1
        · exact ⟨m, List.mem_cons_self m rest, h1.symm⟩
        · obtain ⟨x, hx, hxe⟩ := collectDup_fst_mem m rest y h1
          exact ⟨x, List.mem_cons_of_mem m hx, hxe⟩
      · obtain ⟨x, hx, hxe⟩ := ih (collectDup m rest).2 hlen g htail y hy
        exact ⟨x, List.mem_cons_of_mem m ((collectDup_sublist m rest).subset hx), hxe⟩

theorem sweepAux_groups (n : Nat) :
    ∀ l : List DatedMsg, l.length ≤ n →
      ∀ g ∈ sweepAux n l, g ≠ [] ∧ ∃ x ∈ l, g.headI = x.msg := by
  induction n with
  | zero =>
    intro l h
    have : l = [] := List.length_eq_zero.mp (Nat.le_zero.mp h)
    subst this
    simp [sweepAux]
  | succ n ih =>
    intro l h
    cases l with
    | nil => simp [sweepAux]
    | cons m rest =>
      have hlen : (collectDup m rest).2.length ≤ n := by
        have := collectDup_snd_length m rest
        simp only [List.length_cons] at h
        omega
      intro g hg
      rcases List.mem_cons.mp hg with hfst | htail
      · subst hfst
        exact ⟨by simp, m, List.mem_cons_self m rest, rfl⟩
      · obtain ⟨hne, x, hx, hxe⟩ := ih (collectDup m rest).2 hlen g htail
        exact ⟨hne, x, List.mem_cons_of_mem m ((collectDup_sublist m rest).subset hx), hxe⟩

theorem sweepAux_head_min (n : Nat) :
    ∀ l : List DatedMsg, l.length ≤ n → l.Sorted dateLe →
      (∀ x ∈ l, x.date = x.msg.created) →
      ∀ g ∈ sweepAux n l, ∀ y ∈ g, g.headI.created ≤ y.created := by
  induction n with
  | zero =>
    intro l h
    have : l = [] := List.length_eq_zero.mp (Nat.le_zero.mp h)
    subst this
    simp [sweepAux]
  | succ n ih =>
    intro l h hs hp
    cases l with
    | nil => simp [sweepAux]
    | cons m rest =>
      have hlen : (collectDup m rest).2.length ≤ n := by
        have := collectDup_snd_length m rest
        simp only [List.length_cons] at h
        omega
      obtain ⟨hm, hs'⟩ := List.sorted_cons.mp hs
      intro g hg y hy
      rcases List.mem_cons.mp hg with hfst | htail
      · subst hfst
        simp only [List.headI]
        rcases List.mem_cons.mp hy with h1 | h1
        · exact h1 ▸ le_refl _
        · obtain ⟨x, hx, hxe⟩ := collectDup_fst_mem m rest y h1
          have h2 : m.date ≤ x.date := hm x hx
          have h3 := hp m (List.mem_cons_self m rest)
          have h4 := hp x (List.mem_cons_of_mem m hx)
          rw [← hxe, ← h3, ← h4]
          exact h2
      · exact ih (collectDup m rest).2 hlen
          (List.Pairwise.sublist (collectDup_sublist m rest) hs')
          (fun x hx => hp x (List.mem_cons_of_mem m ((collectDup_sublist m rest).subset hx)))
          g htail y hy

theorem sweepAux_heads_sorted (n : Nat) :
    ∀ l : List DatedMsg, l.length ≤ n → l.Sorted dateLe →
      (∀ x ∈ l, x.date = x.msg.created) →
      List.Sorted (· ≤ ·) ((sweepAux n l).map fun g => g.headI.created) := by
  induction n with
  | zero =>
    intro l h
    have : l = [] := List.length_eq_zero.mp (Nat.le_zero.mp h)
    subst this
    simp [sweepAux]
  | succ n ih =>
    intro l h hs hp
    cases l with
    | nil => simp [sweepAux]
    | cons m rest =>
      have hlen : (collectDup m rest).2.length ≤ n := by
        have := collectDup_snd_length m rest
        simp only [List.length_cons] at h
        omega
      have hs' : (collectDup m rest).2.Sorted dateLe :=
        List.Pairwise.sublist (collectDup_sublist m rest) (List.sorted_cons.mp hs).2
      have hp' : ∀ x ∈ (collectDup m rest).2, x.date = x.msg.created :=
        fun x hx => hp x (List.mem_cons_of_mem m ((collectDup_sublist m rest).subset hx))
      have hheads : (sweepAux (n + 1) (m :: rest)).map (fun g => g.headI.created)
          = m.msg.created
            :: ((sweepAux n (collectDup m rest).2).map fun g => g.headI.created) := by
        simp [sweepAux]
      rw [hheads]
      refine List.sorted_cons.mpr ⟨?_, ih _ hlen hs' hp'⟩
      intro b hb
      obtain ⟨g, hg, hge⟩ := List.mem_map.mp hb
      obtain ⟨_, x, hx, hxe⟩ := sweepAux_groups n _ hlen g hg
      have h2 : m.date ≤ x.date := (List.sorted_cons.mp hs).1 x ((collectDup_sublist m rest).subset hx)
      have h3 := hp m (List.mem_cons_self m rest)
      have h4 := hp x (List.mem_cons_of_mem m ((collectDup_sublist m rest).subset hx))
      rw [← hge, hxe, ← h3, ← h4]
      exact h2

/-- Characterization of one entry's fetched-and-filtered messages
(`meta-discussion.ts` lines 141-161): a dated message of `fetchFrom e` lies in
the entry's store, carries its own creation date, is not older than the entry's
`added`, and is strictly older than the entry's `removed` when one is set. -/
theorem mem_fetchFrom {e : Subdiscussion} {dm : DatedMsg} (h : dm ∈ fetchFrom e) :
    dm.msg ∈ e.subdiscussion.messages ∧ dm.date = dm.msg.created ∧
      e.added ≤ dm.msg.created ∧ ∀ r, e.removed = some r → dm.date < r := by
  simp only [fetchFrom, SimpleDiscussion.getMessages, List.mem_filter, List.mem_map] at h
  obtain ⟨⟨m, hm, rfl⟩, hrem⟩ := h
  obtain ⟨hmem, hafter⟩ := hm
  refine ⟨hmem, rfl, by simpa using hafter, ?_⟩
  intro r hr
  rw [hr] at hrem
  simpa using hrem

theorem mem_pooledMessages {registry : List Subdiscussion} {dm : DatedMsg}
    (h : dm ∈ pooledMessages registry) : ∃ e ∈ registry, dm ∈ fetchFrom e := by
  simp only [pooledMessages, List.mem_flatten, List.mem_map] at h
  obtain ⟨l, ⟨e, he, rfl⟩, hdm⟩ := h
  exact ⟨e, he, hdm⟩

theorem sortedPool_sorted (registry : List Subdiscussion) :
    (sortedPool registry).Sorted dateLe :=
  List.sorted_insertionSort dateLe (pooledMessages registry)

theorem sortedPool_perm (registry : List Subdiscussion) :
    (sortedPool registry).Perm (pooledMessages registry) :=
  List.perm_insertionSort dateLe (pooledMessages registry)

theorem sortedPool_date_eq (registry : List Subdiscussion) :
    ∀ x ∈ sortedPool registry, x.date = x.msg.created := by
  intro x hx
  obtain ⟨e, _, hf⟩ := mem_pooledMessages ((sortedPool_perm registry).mem_iff.mp hx)
  exact (mem_fetchFrom hf).2.1

/-- C2: the Meta-Messages returned by `getMessages` partition the surviving
input pool — their constituents are, as a multiset, exactly the pooled
messages, so each input message appears in exactly one output Meta-Message —
every Meta-Message is non-empty with its earliest member first, and the
sequence is ordered ascending by the creation time of each group's earliest
member. -/
theorem getMessages_partition_sorted (registry : List Subdiscussion) :
    ((getMessages registry).flatten).Perm ((pooledMessages registry).map (·.msg))
    ∧ (∀ g ∈ getMessages registry, g ≠ [])
    ∧ (∀ g ∈ getMessages registry, ∀ y ∈ g, g.headI.created ≤ y.created)
    ∧ List.Sorted (· ≤ ·) ((getMessages registry).map fun g => g.headI.created) := by
  refine ⟨?_, ?_, ?_, ?_⟩
  · exact (sweepAux_flatten_perm _ _ le_rfl).trans ((sortedPool_perm registry).map _)
  · intro g hg
    exact (sweepAux_groups _ _ le_rfl g hg).1
  · intro g hg y hy
    exact sweepAux_head_min _ _ le_rfl (sortedPool_sorted registry)
      (sortedPool_date_eq registry) g hg y hy
  · exact sweepAux_heads_sorted _ _ le_rfl (sortedPool_sorted registry)
      (sortedPool_date_eq registry)

/-- C3: every message appearing in a Meta-Message returned by `getMessages`
was fetched from some registry entry and respects that entry's membership
window: its creation time is at or after the entry's `added`, and strictly
before the entry's `removed` when one is set. Consequently a message whose
creation time is before its entry's `addedAt`, or at/after its `removedAt`,
never appears in the output. -/
theorem getMessages_window_exclusion (registry : List Subdiscussion)
    (g : MetaMessage) (hg : g ∈ getMessages registry)
    (m : SimpleMessage) (hm : m ∈ g) :
    ∃ e ∈ registry, m ∈ e.subdiscussion.messages ∧ e.added ≤ m.created ∧
      ∀ r, e.removed = some r → m.created < r := by
  obtain ⟨x, hx, rfl⟩ := sweepAux_mem _ _ le_rfl g hg m hm
  obtain ⟨e, he, hf⟩ := mem_pooledMessages ((sortedPool_perm registry).mem_iff.mp hx)
  obtain ⟨hmem, hdate, hafter, hrem⟩ := mem_fetchFrom hf
  exact ⟨e, he, hmem, hafter, fun r hr => hdate ▸ hrem r hr⟩

/-- Witness for C3 at a concrete input: one entry added at 0, never removed,
holding the single message ("hi", 5); `getMessages` returns it in one
Meta-Message and the theorem locates its entry and window. -/
theorem getMessages_window_exclusion_witness :
    ∃ e ∈ ([⟨⟨"driverB", "accountB", "discB", [⟨"hi", 5⟩], [], false⟩, 0, none⟩] :
        List Subdiscussion),
      (⟨"hi", 5⟩ : SimpleMessage) ∈ e.subdiscussion.messages
        ∧ e.added ≤ (⟨"hi", 5⟩ : SimpleMessage).created
        ∧ ∀ r, e.removed = some r → (⟨"hi", 5⟩ : SimpleMessage).created < r :=
  getMessages_window_exclusion
    [⟨⟨"driverB", "accountB", "discB", [⟨"hi", 5⟩], [], false⟩, 0, none⟩]
    [⟨"hi", 5⟩] (by decide) ⟨"hi", 5⟩ (by decide)

/-- `MetaDiscussion.removeSubdiscussion` (`meta-discussion.ts` lines 484-510):
reject "Empty meta-discussion" on an empty registry; otherwise compute the
`sames` array of identity comparisons, then scan it for the first active
matching entry. The scan is `for(let i: number; i = 0; i++)` (line 497): its
loop condition is the assignment `i = 0`, whose value 0 is falsy, so the loop
body never runs, `found` stays false, and line 506's rejection
"No such discussion" is always reached. The `.ok` branch below is therefore
dead code (were `found` reachable, the source would set the matched entry's
`removed` to now and resolve). -/
def removeSubdiscussion (registry : List Subdiscussion) (d : SimpleDiscussion) :
    Except String (List Subdiscussion) :=
  if registry.isEmpty then
    .error "Empty meta-discussion"
  else
    let _sames := registry.map fun e => d.isTheSameAs e.subdiscussion
    let found := false
    if found then .ok registry else .error "No such discussion"

/-- C4: the claim states that `removeSubdiscussion(d)` succeeds and tombstones
the matching active entry when one exists. The code cannot: its scan loop's
condition is the assignment `i = 0` (falsy), so no entry is ever examined and
every call on a non-empty registry rejects with "No such discussion" — here
evaluated on a registry whose single active entry IS the argument discussion. -/
theorem removeSubdiscussion_never_succeeds :
    removeSubdiscussion
        [⟨⟨"driverC", "accountC", "discC", [], [], false⟩, 0, none⟩]
        ⟨"driverC", "accountC", "discC", [], [], false⟩
      = .error "No such discussion" := by
  rfl

/-- The merge scan of `addSubdiscussion` (`meta-discussion.ts` lines 469-476):
find the first registry entry sharing the incoming discussion's driver name and
local-account id and not removed, merge the incoming discussion into that
entry's discussion and stop; `none` when no entry qualifies. -/
def mergeFirst (sub : SimpleDiscussion) : List Subdiscussion → Option (List Subdiscussion)
  | [] => none
  | e :: rest =>
    if e.subdiscussion.driverName == sub.driverName
        && e.subdiscussion.localAccountId == sub.localAccountId
        && e.removed.isNone then
      some ({ e with subdiscussion := e.subdiscussion.merge sub } :: rest)
    else
      (mergeFirst sub rest).map (e :: ·)

/-- `MetaDiscussion.addSubdiscussion` (`meta-discussion.ts` lines 416-482):
reject "Already existing" when any registry entry — removed or not — carries
the incoming discussion's global id (lines 464-468); otherwise merge into the
first active entry sharing driver and local account (lines 469-476); otherwise
append a new entry `{subdiscussion, added: now, removed: null}`
(lines 477-479). -/
def addSubdiscussion (registry : List Subdiscussion) (sub : SimpleDiscussion)
    (now : Int) : Except String (List Subdiscussion) :=
  if registry.any fun e => e.subdiscussion.globalId == sub.globalId then
    .error "Already existing"
  else
    match mergeFirst sub registry with
    | some registry2 => .ok registry2
    | none => .ok (registry ++ [⟨sub, now, none⟩])

/-- The registry after a call to `addSubdiscussion`: a rejected call leaves the
source's `this.subDiscussions` untouched (the rejection at lines 464-468 occurs
before any mutation). -/
def addSubdiscussionRegistry (registry : List Subdiscussion) (sub : SimpleDiscussion)
    (now : Int) : List Subdiscussion :=
  match addSubdiscussion registry sub now with
  | .ok r => r
  | .error _ => registry

/-- Number of active (no `removed`) registry entries sharing `sub`'s driver
name and local-account id: the per-(driver, local account) count of the
invariant of spec §3. -/
def activePairCount (registry : List Subdiscussion) (sub : SimpleDiscussion) : Nat :=
  registry.countP fun e =>
    e.subdiscussion.driverName == sub.driverName
      && e.subdiscussion.localAccountId == sub.localAccountId
      && e.removed.isNone

theorem mergeFirst_of_active (sub : SimpleDiscussion) (registry : List Subdiscussion)
    (h : 0 < activePairCount registry sub) :
    ∃ registry2, mergeFirst sub registry = some registry2
      ∧ registry2.length = registry.length
      ∧ activePairCount registry2 sub = activePairCount registry sub := by
  induction registry with
  | nil => simp [activePairCount] at h
  | cons e rest ih =>
    by_cases hc : (e.subdiscussion.driverName == sub.driverName
        && e.subdiscussion.localAccountId == sub.localAccountId
        && e.removed.isNone) = true
    · refine ⟨{ e with subdiscussion := e.subdiscussion.merge sub } :: rest,
        by simp [mergeFirst, hc], by simp, ?_⟩
      simp only [activePairCount, List.countP_cons]
      simp [SimpleDiscussion.merge, hc]
    · have h' : 0 < activePairCount rest sub := by
        simp only [activePairCount, List.countP_cons, hc] at h ⊢
        simpa using h
      obtain ⟨r2, hr2, hlen, hcount⟩ := ih h'
      refine ⟨e :: r2, by simp [mergeFirst, hc, hr2], by simp [hlen], ?_⟩
      simp only [activePairCount, List.countP_cons] at *
      omega

/-- C5: on a registry that holds exactly one active entry for the incoming
discussion's (driver, local account) pair — the invariant of spec §3 — and no
entry with the incoming discussion's global id, `addSubdiscussion` merges the
incoming discussion into that active entry instead of appending: the call
succeeds, the registry keeps its length, and exactly one active entry for the
pair remains. -/
theorem addSubdiscussion_merges_into_active (registry : List Subdiscussion)
    (sub : SimpleDiscussion) (now : Int)
    (hid : ∀ e ∈ registry, e.subdiscussion.globalId ≠ sub.globalId)
    (hpair : activePairCount registry sub = 1) :
    ∃ registry2, addSubdiscussion registry sub now = .ok registry2
      ∧ registry2.length = registry.length
      ∧ activePairCount registry2 sub = 1 := by
  have hany : (registry.any fun e => e.subdiscussion.globalId == sub.globalId) = false := by
    rw [List.any_eq_false]
    intro e he
    simpa using hid e he
  obtain ⟨r2, hr2, hlen, hcount⟩ := mergeFirst_of_active sub registry (by omega)
  exact ⟨r2, by simp [addSubdiscussion, hany, hr2], hlen, by omega⟩

/-- Witness for C5 at a concrete input: one active entry on (driver "x",
account "a") with discussion id "g1"; adding a distinct discussion "g2" on the
same pair merges instead of appending. -/
theorem addSubdiscussion_merges_into_active_witness :
    ∃ registry2,
      addSubdiscussion [⟨⟨"x", "a", "g1", [], [], false⟩, 0, none⟩]
          ⟨"x", "a", "g2", [], [], false⟩ 7 = .ok registry2
        ∧ registry2.length = 1
        ∧ activePairCount registry2 ⟨"x", "a", "g2", [], [], false⟩ = 1 :=
  addSubdiscussion_merges_into_active
    [⟨⟨"x", "a", "g1", [], [], false⟩, 0, none⟩]
    ⟨"x", "a", "g2", [], [], false⟩ 7 (by decide) (by decide)

/-- C8: when some registry entry already carries the incoming discussion's
global id, `addSubdiscussion` rejects with the "Already existing" Conflict and
the registry is unchanged. -/
theorem addSubdiscussion_conflict (registry : List Subdiscussion)
    (sub : SimpleDiscussion) (now : Int)
    (h : ∃ e ∈ registry, e.subdiscussion.globalId = sub.globalId) :
    addSubdiscussion registry sub now = .error "Already existing"
      ∧ addSubdiscussionRegistry registry sub now = registry := by
  have hany : (registry.any fun e => e.subdiscussion.globalId == sub.globalId) = true := by
    obtain ⟨e, he, heq⟩ := h
    exact List.any_eq_true.mpr ⟨e, he, by simpa using heq⟩
  constructor
  · simp [addSubdiscussion, hany]
  · simp [addSubdiscussionRegistry, addSubdiscussion, hany]

/-- Witness for C8 at a concrete input: the registry already holds discussion
id "g1" (on another driver and account, which does not matter: the id check
spans all entries). -/
theorem addSubdiscussion_conflict_witness :
    addSubdiscussion [⟨⟨"x", "a", "g1", [], [], false⟩, 0, none⟩]
        ⟨"y", "b", "g1", [], [], false⟩ 3 = .error "Already existing"
      ∧ addSubdiscussionRegistry [⟨⟨"x", "a", "g1", [], [], false⟩, 0, none⟩]
          ⟨"y", "b", "g1", [], [], false⟩ 3
        = [⟨⟨"x", "a", "g1", [], [], false⟩, 0, none⟩] :=
  addSubdiscussion_conflict [⟨⟨"x", "a", "g1", [], [], false⟩, 0, none⟩]
    ⟨"y", "b", "g1", [], [], false⟩ 3 (by decide)

/-- `MetaDiscussion.isHeterogeneous` (`meta-discussion.ts` lines 350-387):
false for an empty registry; otherwise true when some entry's driver name
differs from the first entry's, or some entry's local-account id differs from
the first entry's. The entries come from `getSubDiscussions()`
(lines 393-401), which returns every registry entry's discussion, the
logically removed ones included, so removed entries take part in the
comparison. -/
def isHeterogeneous (registry : List Subdiscussion) : Bool :=
  match registry with
  | [] => false
  | e0 :: _ =>
    ((registry.map fun e => e.subdiscussion.driverName).any
        fun p => p != e0.subdiscussion.driverName)
      || ((registry.map fun e => e.subdiscussion.localAccountId).any
        fun i => i != e0.subdiscussion.localAccountId)

/-- C7 counterexample: a registry with a removed entry on driver "x" and an
active entry on driver "y" has exactly one active sub-discussion, for which
the claim requires `isHeterogeneous() = false`; the code returns true, because
its accessor does not filter out logically removed entries. -/
theorem isHeterogeneous_counts_removed :
    (([⟨⟨"x", "a", "g1", [], [], false⟩, 0, some 10⟩,
        ⟨⟨"y", "a", "g2", [], [], false⟩, 0, none⟩] :
        List Subdiscussion).countP fun e => e.removed.isNone) = 1
      ∧ isHeterogeneous
          [⟨⟨"x", "a", "g1", [], [], false⟩, 0, some 10⟩,
           ⟨⟨"y", "a", "g2", [], [], false⟩, 0, none⟩] = true := by
  decide

/-- C7 amended: `isHeterogeneous()` considers ALL registry entries, the
logically removed ones included: it returns true exactly when two registry
entries (active or removed) differ in driver name or two differ in
local-account global id, and false in particular for an empty or single-entry
registry. -/
theorem isHeterogeneous_iff (registry : List Subdiscussion) :
    isHeterogeneous registry = true ↔
      ∃ e1 ∈ registry, ∃ e2 ∈ registry,
        e1.subdiscussion.driverName ≠ e2.subdiscussion.driverName
          ∨ e1.subdiscussion.localAccountId ≠ e2.subdiscussion.localAccountId := by
  cases registry with
  | nil => simp [isHeterogeneous]
  | cons e0 rest =>
    simp only [isHeterogeneous, Bool.or_eq_true, List.any_eq_true, List.mem_map, bne_iff_ne]
    constructor
    · rintro (⟨p, ⟨e, he, rfl⟩, hne⟩ | ⟨i, ⟨e, he, rfl⟩, hne⟩)
      · exact ⟨e, he, e0, List.mem_cons_self e0 rest, Or.inl hne⟩
      · exact ⟨e, he, e0, List.mem_cons_self e0 rest, Or.inr hne⟩
    · rintro ⟨e1, he1, e2, he2, hne | hne⟩
      · by_cases h0 : e1.subdiscussion.driverName = e0.subdiscussion.driverName
        · exact Or.inl ⟨e2.subdiscussion.driverName, ⟨e2, he2, rfl⟩, fun hh => hne (h0.trans hh.symm)⟩
        · exact Or.inl ⟨e1.subdiscussion.driverName, ⟨e1, he1, rfl⟩, h0⟩
      · by_cases h0 : e1.subdiscussion.localAccountId = e0.subdiscussion.localAccountId
        · exact Or.inr ⟨e2.subdiscussion.localAccountId, ⟨e2, he2, rfl⟩, fun hh => hne (h0.trans hh.symm)⟩
        · exact Or.inr ⟨e1.subdiscussion.localAccountId, ⟨e1, he1, rfl⟩, h0⟩

/-- Fan-out of `Bluebird.map` over the sibling sends (`meta-discussion.ts`
lines 536-538): every send is attempted, the aggregate resolves with the list
of sent messages when all succeed and rejects with a send failure when any
sibling send fails (no `.catch` absorbs an individual rejection). -/
def sendAll (siblings : List SimpleDiscussion) (body : String) :
    Except String (List SimpleMessage) :=
  match siblings with
  | [] => .ok []
  | s :: rest =>
    match s.sendMessage body, sendAll rest body with
    | .error err, _ => .error err
    | .ok _, .error err => .error err
    | .ok m, .ok ms => .ok (m :: ms)

/-- `MetaDiscussion.dispatchFrom` (`meta-discussion.ts` lines 522-544): send a
quoted copy `">>" + body` of the incoming message to every sub-discussion
whose global id differs from the source's (`getSubDiscussions()` yields every
entry's discussion), then build the Meta-Message of the sent copies plus the
original message. The dispatch rejects when the fan-out rejects; the handler
installed by `attachEventsTo` (lines 546-558) emits the "message" event only
in the `.then` continuation of a resolved dispatch, so a rejected dispatch
emits nothing. -/
def dispatchFrom (registry : List Subdiscussion) (source : SimpleDiscussion)
    (messageSource : SimpleMessage) : Except String MetaMessage :=
  let siblings := (registry.map fun e => e.subdiscussion).filter
    fun s => s.globalId != source.globalId
  (sendAll siblings (">>" ++ messageSource.body)).map
    fun subMessages => subMessages ++ [messageSource]

/-- C6 counterexample: sibling "g1" fails its send while sibling "g2" is
reachable; relaying a message incoming on source discussion "src" rejects
outright — the value is an error, not the Meta-Message of the successful send
plus the original that the claim promises, and no "message" event follows. -/
theorem dispatchFrom_rejects_on_failure :
    dispatchFrom
        [⟨⟨"x", "a", "g1", [], [], true⟩, 0, none⟩,
         ⟨⟨"y", "b", "g2", [], [], false⟩, 0, none⟩]
        ⟨"z", "c", "src", [], [], false⟩ ⟨"hi", 0⟩
      = .error "send failed" := by
  rfl

theorem sendAll_error (body : String) (siblings : List SimpleDiscussion)
    (h : ∃ s ∈ siblings, s.sendFails = true) :
    ∃ err, sendAll siblings body = .error err := by
  induction siblings with
  | nil => simp at h
  | cons s rest ih =>
    by_cases hs : s.sendFails
    · exact ⟨"send failed", by simp [sendAll, SimpleDiscussion.sendMessage, hs]⟩
    · have hrest : ∃ x ∈ rest, x.sendFails = true := by
        rcases h with ⟨x, hx, hxf⟩
        rcases List.mem_cons.mp hx with rfl | hx'
        · exact absurd hxf hs
        · exact ⟨x, hx', hxf⟩
      obtain ⟨err, herr⟩ := ih hrest
      exact ⟨err, by simp [sendAll, SimpleDiscussion.sendMessage, hs, herr]⟩

/-- C6 amended: a failed send on any sibling sub-discussion aborts the whole
relay: `dispatchFrom` rejects, so no Meta-Message is built and no "message"
event is emitted for that incoming message — the reachable siblings' sent
copies are discarded rather than emitted without the failed one. -/
theorem dispatchFrom_aborts_on_sibling_failure (registry : List Subdiscussion)
    (source : SimpleDiscussion) (messageSource : SimpleMessage)
    (h : ∃ e ∈ registry, e.subdiscussion.globalId ≠ source.globalId
          ∧ e.subdiscussion.sendFails = true) :
    ∃ err, dispatchFrom registry source messageSource = .error err := by
  obtain ⟨e, he, hne, hf⟩ := h
  have hmem : e.subdiscussion ∈ (registry.map fun e => e.subdiscussion).filter
      fun s => s.globalId != source.globalId := by
    rw [List.mem_filter]
    exact ⟨List.mem_map.mpr ⟨e, he, rfl⟩, by simpa using hne⟩
  obtain ⟨err, herr⟩ := sendAll_error (">>" ++ messageSource.body) _ ⟨e.subdiscussion, hmem, hf⟩
  exact ⟨err, by simp [dispatchFrom, herr, Except.map]⟩

/-- Witness for C6's amended claim at a concrete input: a single sibling whose
backend rejects sends. -/
theorem dispatchFrom_aborts_on_sibling_failure_witness :
    ∃ err, dispatchFrom [⟨⟨"x", "a", "h1", [], [], true⟩, 0, none⟩]
        ⟨"z", "c", "src0", [], [], false⟩ ⟨"yo", 1⟩ = .error err :=
  dispatchFrom_aborts_on_sibling_failure
    [⟨⟨"x", "a", "h1", [], [], true⟩, 0, none⟩]
    ⟨"z", "c", "src0", [], [], false⟩ ⟨"yo", 1⟩ (by decide)

/-- Modelled from the spec: the `GetParticipantsOptions` interface is not under
`src/`; the only option the meta-level code consults is `maxParticipants`
(§4.2 "Optional filter/limit parameters"). A JavaScript number is falsy when
0, which `if(options && options.maxParticipants)` tests, hence the explicit
zero test in the fold step below. -/
structure GetParticipantsOptions where
  maxParticipants : Option Int
deriving DecidableEq, Repr

/-- One step of the participant collection of `MetaDiscussion.getParticipants`
(`meta-discussion.ts` lines 207-222) on the accumulator `(part, counter)` for
one sub-discussion. Every branch of the source invokes `_.concat(part, parts)`
or `_.concat(part, parts.slice(...))`: lodash `concat` returns a NEW array and
the source discards its return value, so `part` itself is never changed; only
`counter` advances. -/
def participantsStep (options : Option GetParticipantsOptions)
    (st : List String × Int) (d : SimpleDiscussion) : List String × Int :=
  let part := st.1
  let counter := st.2
  let parts := d.getParticipants
  match options with
  | some opts =>
    match opts.maxParticipants with
    | some maxP =>
      if maxP ≠ 0 then
        if counter + (parts.length : Int) < maxP then
          (part, counter + (parts.length : Int))
        else if counter ≠ maxP then
          (part, counter + (maxP - counter))
        else
          (part, counter)
      else
        (part, counter + (parts.length : Int))
    | none => (part, counter + (parts.length : Int))
  | none => (part, counter + (parts.length : Int))

/-- `MetaDiscussion.getParticipants` (`meta-discussion.ts` lines 201-226):
fold the collection step over all sub-discussions (removed entries included,
via `getSubDiscussions()`) starting from the empty `part` array and counter 0,
then resolve with `part`. -/
def getParticipants (registry : List Subdiscussion)
    (options : Option GetParticipantsOptions) : List String :=
  ((registry.map fun e => e.subdiscussion).foldl (participantsStep options) ([], 0)).1

theorem participantsStep_fst (options : Option GetParticipantsOptions)
    (st : List String × Int) (d : SimpleDiscussion) :
    (participantsStep options st d).1 = st.1 := by
  cases options with
  | none => rfl
  | some opts =>
    cases h : opts.maxParticipants with
    | none => simp [participantsStep, h]
    | some maxP =>
      simp only [participantsStep, h]
      split_ifs <;> rfl

/-- C10: `getParticipants` always resolves to the empty participant list,
whatever the registry and whatever the options (with or without
`maxParticipants`): in every branch the collected participants go to a lodash
`concat` whose fresh result is discarded, so nothing is ever added to the
returned array. -/
theorem getParticipants_empty (registry : List Subdiscussion)
    (options : Option GetParticipantsOptions) :
    getParticipants registry options = [] := by
  have key : ∀ (l : List SimpleDiscussion) (st : List String × Int),
      (l.foldl (participantsStep options) st).1 = st.1 := by
    intro l
    induction l with
    | nil => intro st; rfl
    | cons d rest ih =>
      intro st
      rw [List.foldl_cons, ih, participantsStep_fst]
  simpa [getParticipants] using key (registry.map fun e => e.subdiscussion) ([], 0)

/-- Modelled from the spec: a user account "knows its own contacts and can
resolve or create a homogeneous discussion for a contact set on its own
driver" (§3); the account class is not under `src/`. `globalId` is the value
of `getGlobalId()` and `contacts` the global ids of `getContactAccounts()`.
`user.ts` compares accounts by object identity (`rightUser !== userAccount.user`);
accounts of one user are distinct objects unique by global id (`addAccount`
rejects duplicates), so identity is structural equality here. -/
structure Account where
  globalId : String
  contacts : List String
deriving DecidableEq, Repr

/-- Outcome of `User.getOrCreateDiscussion` (`user.ts` lines 90-105): the call
either delegates to the single candidate account's own
`getOrCreateDiscussion` — whose result, that account's Simple Discussion, is
returned directly — or constructs a fresh Meta-Discussion and adds every
target contact to it. The heterogeneous branch is opaque here: the claims only
discern which branch ran and to which account the call delegated. -/
inductive DiscussionResolution
  | delegated (account : Account)
  | metaCreated
deriving DecidableEq, Repr

/-- The inner scan of `User.getOrCreateDiscussion` over one account's targets
(`user.ts` lines 70-79): on each target id known to the account, mark the
request heterogeneous and stop when a different account was already
remembered (`rightUser && rightUser !== userAccount.user`), else remember this
account (`rightUser = userAccount.user`, which is `some acc` whether
`rightUser` was null or already this account). -/
def scanTargets (acc : Account) (rightUser : Option Account) :
    List String → Option Account × Bool
  | [] => (rightUser, false)
  | t :: ts =>
    if acc.contacts.contains t then
      if rightUser.isSome ∧ rightUser ≠ some acc then
        (rightUser, true)
      else
        scanTargets acc (some acc) ts
    else
      scanTargets acc rightUser ts

/-- The outer scan of `User.getOrCreateDiscussion` over the owned accounts
(`user.ts` lines 69-83), threading `rightUser` and stopping once
heterogeneous. -/
def resolveOwner (rightUser : Option Account) :
    List Account → List String → Option Account × Bool
  | [], _ => (rightUser, false)
  | a :: rest, targets =>
    match scanTargets a rightUser targets with
    | (r2, true) => (r2, true)
    | (r2, false) => resolveOwner r2 rest targets

/-- `User.getOrCreateDiscussion` (`user.ts` lines 42-106): resolve the target
contact ids against each owned account's contact ids; reject with the
"contact unknown" Incident when no account knows any target (line 85);
otherwise return the heterogeneous Meta-Discussion construction or delegate to
the remembered account's own get-or-create operation (lines 90-105). -/
def getOrCreateDiscussion (accounts : List Account) (targets : List String) :
    Except String DiscussionResolution :=
  match resolveOwner none accounts targets with
  | (none, _) => .error "One of the contacts is unknown by the current user."
  | (some ru, het) => if het then .ok .metaCreated else .ok (.delegated ru)

/-- Whether an account knows at least one of the target contact ids: the
intersection test of `user.ts` line 71. -/
def intersects (a : Account) (targets : List String) : Bool :=
  targets.any fun t => a.contacts.contains t

theorem scanTargets_of_not_intersects (acc : Account) (rightUser : Option Account)
    (targets : List String) (h : intersects acc targets = false) :
    scanTargets acc rightUser targets = (rightUser, false) := by
  induction targets with
  | nil => rfl
  | cons t ts ih =>
    simp only [intersects, List.any_cons, Bool.or_eq_false_iff] at h
    rw [scanTargets, if_neg (by simpa using h.1)]
    exact ih (by simpa [intersects] using h.2)

theorem scanTargets_self (acc : Account) (targets : List String) :
    scanTargets acc (some acc) targets = (some acc, false) := by
  induction targets with
  | nil => rfl
  | cons t ts ih =>
    rw [scanTargets]
    split
    · rw [if_neg (by simp)]
      exact ih
    · exact ih

theorem scanTargets_none (acc : Account) (targets : List String)
    (h : intersects acc targets = true) :
    scanTargets acc none targets = (some acc, false) := by
  induction targets with
  | nil => simp [intersects] at h
  | cons t ts ih =>
    by_cases ht : acc.contacts.contains t
    · rw [scanTargets, if_pos ht, if_neg (by simp)]
      exact scanTargets_self acc ts
    · rw [scanTargets, if_neg ht]
      refine ih ?_
      simp only [intersects, List.any_cons, Bool.or_eq_true] at h
      rcases h with h | h
      · exact absurd h ht
      · simpa [intersects] using h

theorem resolveOwner_of_none_intersects (rightUser : Option Account)
    (accounts : List Account) (targets : List String)
    (h : ∀ a ∈ accounts, intersects a targets = false) :
    resolveOwner rightUser accounts targets = (rightUser, false) := by
  induction accounts generalizing rightUser with
  | nil => rfl
  | cons a rest ih =>
    rw [resolveOwner, scanTargets_of_not_intersects a rightUser targets
      (h a (List.mem_cons_self a rest))]
    exact ih rightUser fun x hx => h x (List.mem_cons_of_mem a hx)

theorem filter_eq_singleton_split {α : Type} (p : α → Bool) :
    ∀ (l : List α) (a : α), l.filter p = [a] →
      ∃ l1 l2, l = l1 ++ a :: l2 ∧ (∀ x ∈ l1, p x = false)
        ∧ (∀ x ∈ l2, p x = false) ∧ p a = true := by
  intro l
  induction l with
  | nil => intro a h; simp at h
  | cons x xs ih =>
    intro a h
    by_cases hx : p x
    · rw [List.filter_cons_of_pos hx] at h
      obtain ⟨rfl, hnil⟩ := List.cons_eq_cons.mp h
      refine ⟨[], xs, by simp, by simp, ?_, hx⟩
      intro y hy
      simpa using List.filter_eq_nil_iff.mp hnil y hy
    · rw [List.filter_cons_of_neg hx] at h
      obtain ⟨l1, l2, rfl, h1, h2, ha⟩ := ih a h
      exact ⟨x :: l1, l2, rfl, fun y hy => by
        rcases List.mem_cons.mp hy with rfl | hy'
        · exact Bool.eq_false_iff.mpr hx
        · exact h1 y hy', h2, ha⟩

theorem resolveOwner_skip (targets : List String) (l1 rest : List Account)
    (h1 : ∀ x ∈ l1, intersects x targets = false) (r : Option Account) :
    resolveOwner r (l1 ++ rest) targets = resolveOwner r rest targets := by
  induction l1 generalizing r with
  | nil => rfl
  | cons x xs ih =>
    rw [List.cons_append, resolveOwner,
      scanTargets_of_not_intersects x r targets (h1 x (List.mem_cons_self x xs))]
    exact ih (fun y hy => h1 y (List.mem_cons_of_mem x hy)) r

/-- C9: when at most one owned account knows any of the target contact ids,
`User.getOrCreateDiscussion` rejects with the "contact unknown" Incident if no
account intersects the targets, and otherwise delegates to the single
intersecting account's own get-or-create-discussion operation, returning its
Simple Discussion result directly — not wrapped in a Meta-Discussion. -/
theorem getOrCreateDiscussion_resolution (accounts : List Account)
    (targets : List String)
    (h : (accounts.filter fun a => intersects a targets).length ≤ 1) :
    getOrCreateDiscussion accounts targets =
      match accounts.filter fun a => intersects a targets with
      | [] => .error "One of the contacts is unknown by the current user."
      | a :: _ => .ok (.delegated a) := by
  cases hf : accounts.filter fun a => intersects a targets with
  | nil =>
    have hall : ∀ a ∈ accounts, intersects a targets = false := by
      intro a ha
      by_contra hc
      have : a ∈ accounts.filter fun a => intersects a targets :=
        List.mem_filter.mpr ⟨ha, Bool.not_eq_false _ |>.mp hc⟩
      simp [hf] at this
    simp only [getOrCreateDiscussion,
      resolveOwner_of_none_intersects none accounts targets hall]
  | cons a0 tail =>
    have htail : tail = [] := by
      have := hf ▸ h
      simpa using List.length_eq_zero.mp (by simpa using this)
    subst htail
    obtain ⟨l1, l2, rfl, h1, h2, ha⟩ := filter_eq_singleton_split _ accounts a0 hf
    have step1 : resolveOwner none (l1 ++ a0 :: l2) targets = (some a0, false) := by
      rw [resolveOwner_skip targets l1 (a0 :: l2) h1 none, resolveOwner,
        scanTargets_none a0 targets ha]
      exact resolveOwner_of_none_intersects (some a0) l2 targets h2
    simp only [getOrCreateDiscussion, step1]
    rfl

/-- Witness for C9 at a concrete input: accounts "a1" (knows contact "c") and
"a2" (knows only "d"); requesting a discussion with "c" delegates to "a1". -/
theorem getOrCreateDiscussion_resolution_witness :
    getOrCreateDiscussion [⟨"a1", ["c"]⟩, ⟨"a2", ["d"]⟩] ["c"]
      = .ok (.delegated ⟨"a1", ["c"]⟩) := by
  rw [getOrCreateDiscussion_resolution [⟨"a1", ["c"]⟩, ⟨"a2", ["d"]⟩] ["c"] (by decide)]
  rfl

end OmniChat
